import Mathlib

/-!
Verification of the noseyparker repository's Python scripts against their
natural-language specification.

The development shallow-embeds:
* `tools/hsbench/scripts/linebasedCorpus.py` (the line-based corpus populator),
* the `code_block` and `natural_sort_key` helpers of the doc-generation
  scripts under `doc-scripts/`, and
* the corpus writer (`CorpusBuilder`), whose source is not in the visible
  tree; it is modelled from the specification where needed.

Python strings are embedded as `List Char`; machine-level concerns (file
handles, actual process exit) are represented by explicit outcome records.
-/

/-- The backtick character, written via its code point. -/
def backtick : Char := Char.ofNat 96

/-- The character list underlying a string literal. -/
def chars (s : String) : List Char := s.data

/-- The set of characters stripped by Python's `str.rstrip()` when called with
no argument: exactly the code points for which `str.isspace` holds
(ASCII whitespace, the C1 controls 0x1c-0x1f, and the Unicode space
characters). -/
def pyIsSpace (c : Char) : Bool :=
  [9, 10, 11, 12, 13, 28, 29, 30, 31, 32, 0x85, 0xA0, 0x1680,
   0x2000, 0x2001, 0x2002, 0x2003, 0x2004, 0x2005, 0x2006, 0x2007,
   0x2008, 0x2009, 0x200A, 0x2028, 0x2029, 0x202F, 0x205F, 0x3000].contains c.toNat

/-- Python `l.rstrip()`: remove the maximal run of trailing whitespace. -/
def pyRstrip (l : List Char) : List Char :=
  (l.reverse.dropWhile pyIsSpace).reverse

/-- One call made by the populator on the corpus writer, in order:
constructing `CorpusBuilder(outFN)`, `add_chunk(streamId, payload)`,
or `finish()`. -/
inductive WriterEvent where
  | openW : String → WriterEvent
  | addChunk : Nat → List Char → WriterEvent
  | finishW : WriterEvent
deriving DecidableEq, Repr

/-- Observable outcome of running `lineCorpus`: the exit status passed to
`sys.exit` (0 on normal return), the diagnostic printed to stderr (if any),
and the ordered trace of writer calls. -/
structure PopOutcome where
  exitCode : Int
  errMsg : Option String
  events : List WriterEvent
deriving DecidableEq, Repr

/-- Embedding of `lineCorpus(inFN, outFN)` from `linebasedCorpus.py`.
`inExists` is the result of `os.path.exists(inFN)` and `fileLines` the
result of `open(inFN).readlines()` (each line keeps its terminator, except
possibly the last). Mirrors the source: a missing input prints a message
(formatted, as in the source, with `outFN`) and exits -1; an empty input
exits 0; otherwise every line is pushed as a chunk of stream 0 after
`rstrip()`, and `finish()` is called once at the end. -/
def lineCorpus (inFN outFN : String) (inExists : Bool) (fileLines : List (List Char)) :
    PopOutcome :=
  if !inExists then
    { exitCode := -1
      errMsg := some ("Input file \x27" ++ outFN ++ "\x27 does not exist. Exiting.")
      events := [] }
  else if fileLines.length = 0 then
    { exitCode := 0
      errMsg := some "Input file contained no lines. Exiting."
      events := [] }
  else
    { exitCode := 0
      errMsg := none
      events := WriterEvent.openW outFN ::
        ((fileLines.map fun l => WriterEvent.addChunk 0 (pyRstrip l)) ++
          [WriterEvent.finishW]) }

/-- The `add_chunk` calls of a trace, in order, as (streamId, payload). -/
def PopOutcome.chunkCalls (o : PopOutcome) : List (Nat × List Char) :=
  o.events.filterMap fun e =>
    match e with
    | WriterEvent.addChunk sid payload => some (sid, payload)
    | _ => none

/-- Whether a writer was ever constructed during the run. -/
def PopOutcome.writerOpened (o : PopOutcome) : Bool :=
  o.events.any fun e =>
    match e with
    | WriterEvent.openW _ => true
    | _ => false

/-- How many times `finish()` was called during the run. -/
def PopOutcome.finishCount (o : PopOutcome) : Nat :=
  (o.events.filter fun e =>
    match e with
    | WriterEvent.finishW => true
    | _ => false).length

/-- The characterization of Python `rstrip`: `out` is obtained from `orig` by
removing a (maximal) suffix of whitespace characters — so nothing but
trailing whitespace is removed, and all of it is. -/
def RstripSpec (orig out : List Char) : Prop :=
  (∃ w, orig = out ++ w ∧ ∀ c ∈ w, pyIsSpace c = true) ∧
  (∀ c ∈ out.reverse.head?, pyIsSpace c = false)

/-- Errors of the corpus writer, as named by the specification. -/
inductive WriterError where
  | emptyCorpus : WriterError
  | usageError : WriterError
deriving DecidableEq, Repr

/-- Modelled from the spec: the writer's implicit stream creation on first
write (`CorpusBuilder.add_chunk`; `CorpusBuilder.py` is not in the visible
source tree). Appending a chunk to the stream table: an existing stream
record for `sid` gets `payload` appended at the end; a previously-unseen
`sid` creates a new stream record whose sequence starts with `payload`. -/
def insertChunk : List (Nat × List (List Char)) → Nat → List Char →
    List (Nat × List (List Char))
  | [], sid, payload => [(sid, [payload])]
  | (s, ps) :: rest, sid, payload =>
    if s = sid then (s, ps ++ [payload]) :: rest
    else (s, ps) :: insertChunk rest sid payload

/-- Modelled from the spec: `CorpusBuilder.finish()` on the full sequence of
`add_chunk` calls (streamId, payload) made on the writer. With zero chunks it
fails with `EmptyCorpusError` and yields no database; otherwise it emits the
immutable stream table accumulated in arrival order. -/
def finishWriter (calls : List (Nat × List Char)) :
    Except WriterError (List (Nat × List (List Char))) :=
  if calls.isEmpty then Except.error WriterError.emptyCorpus
  else Except.ok (calls.foldl (fun db c => insertChunk db c.1 c.2) [])

/-- Modelled from the spec: the reader side — reading back the chunk sequence
of the stream `sid` from a finalized database (empty if `sid` never
occurred). -/
def readStream : List (Nat × List (List Char)) → Nat → List (List Char)
  | [], _ => []
  | (s, ps) :: rest, sid => if s = sid then ps else readStream rest sid

/-- The payloads submitted for stream `sid`, in submission order. -/
def streamPayloads (calls : List (Nat × List Char)) (sid : Nat) :
    List (List Char) :=
  (calls.filter fun c => c.1 == sid).map fun c => c.2

/-- Length of the leading run of backticks of a character list. -/
def leadingBackticks : List Char → Nat
  | [] => 0
  | c :: rest => if c = backtick then leadingBackticks rest + 1 else 0

/-- Embedding of `re.search(r'\x60+', s)` as used in `code_block`: the length
of the first maximal run of backticks in `s`, or `none` when `s` contains no
backtick. -/
def firstBacktickRun : List Char → Option Nat
  | [] => none
  | c :: rest =>
    if c = backtick then some (leadingBackticks rest + 1)
    else firstBacktickRun rest

/-- Embedding of `code_block` from `generate_rules_docs.py` and
`generate_command_reference.py`: wrap `s` between two identical delimiter
lines of backticks, one more backtick than the first backtick run of `s`, or
three when `s` has no backtick. -/
def code_block (s : List Char) : List Char :=
  match firstBacktickRun s with
  | some n =>
    let delim := List.replicate (n + 1) backtick
    delim ++ Char.ofNat 10 :: (s ++ Char.ofNat 10 :: delim)
  | none =>
    let delim := List.replicate 3 backtick
    delim ++ Char.ofNat 10 :: (s ++ Char.ofNat 10 :: delim)

/-- The delimiter length `code_block` chooses for `s`. -/
def codeBlockDelimLen (s : List Char) : Nat :=
  match firstBacktickRun s with
  | some n => n + 1
  | none => 3

/-- Whether `s` starts with `pat`. -/
def listStartsWith : List Char → List Char → Bool
  | [], _ => true
  | _ :: _, [] => false
  | a :: as, b :: bs => a = b && listStartsWith as bs

/-- Whether `pat` occurs as a contiguous substring of `s`. -/
def occursIn (pat : List Char) : List Char → Bool
  | [] => listStartsWith pat []
  | c :: rest => listStartsWith pat (c :: rest) || occursIn pat rest

/-- A decimal digit, as matched by the regex `\d` of `natural_sort_key`. -/
def isDig (c : Char) : Bool := c.isDigit

/-- Python `text.lower()` on the character list of a string. -/
def lowerStr (l : List Char) : List Char := l.map Char.toLower

/-- The numeric value of a decimal digit character. -/
def digitVal (c : Char) : Nat := c.toNat - 48

/-- Python `int(text)` on a non-empty all-digit string. -/
def digitsVal (l : List Char) : Nat :=
  l.foldl (fun acc c => 10 * acc + digitVal c) 0

/-- One element of the key list returned by `natural_sort_key`: a lowercased
text piece or the integer value of a digit run (the two kinds never meet at
the same position when two keys are compared, since `re.split` with one
capturing group alternates text and digit-run pieces). -/
inductive NKey where
  | str : List Char → NKey
  | num : Nat → NKey
deriving DecidableEq, Repr

/-- Embedding of `natural_sort_key` from `generate_rules_docs.py`: split the
string with `re.split(r'(\d+)')` into alternating text and digit-run pieces
(the list always starts and ends with a possibly-empty text piece), mapping
each digit run to its integer value and each text piece to its lowercase
form. -/
def natural_sort_key (s : List Char) : List NKey :=
  if h : (s.dropWhile fun c => !isDig c).isEmpty then
    [NKey.str (lowerStr (s.takeWhile fun c => !isDig c))]
  else
    NKey.str (lowerStr (s.takeWhile fun c => !isDig c)) ::
    NKey.num (digitsVal ((s.dropWhile fun c => !isDig c).takeWhile isDig)) ::
    natural_sort_key ((s.dropWhile fun c => !isDig c).dropWhile isDig)
termination_by s.length
decreasing_by
  rcases e : (s.dropWhile fun c => !isDig c) with _ | ⟨c, t⟩
  · rw [e] at h
    simp at h
  · have hc : (fun c => !isDig c) c = false := by
      have hd := List.head_dropWhile_not (fun c => !isDig c) s (by simp [e])
      simp only [e, List.head_cons] at hd
      exact hd
    have hdig : isDig c = true := by
      simpa using hc
    have h1 : ((c :: t).dropWhile isDig).length ≤ t.length := by
      rw [List.dropWhile_cons, if_pos hdig]
      exact (List.dropWhile_suffix isDig).sublist.length_le
    have h2 : (c :: t).length ≤ s.length := by
      rw [← e]
      exact (List.dropWhile_suffix _).sublist.length_le
    simp only [List.length_cons] at h2
    omega

/-- Python comparison of two strings (code-point lexicographic). -/
def charsLt : List Char → List Char → Bool
  | [], [] => false
  | [], _ :: _ => true
  | _ :: _, [] => false
  | a :: as, b :: bs => if a < b then true else if a = b then charsLt as bs else false

/-- Python comparison of two key elements. Comparing a text piece with an
integer raises `TypeError` in Python; such a comparison never happens between
two `natural_sort_key` results, and is modelled as `false`. -/
def nkLt : NKey → NKey → Bool
  | NKey.str a, NKey.str b => charsLt a b
  | NKey.num a, NKey.num b => decide (a < b)
  | _, _ => false

/-- Python comparison of two key lists (lexicographic; a strict prefix is
smaller). -/
def keyLt : List NKey → List NKey → Bool
  | [], [] => false
  | [], _ :: _ => true
  | _ :: _, [] => false
  | x :: xs, y :: ys => if x = y then keyLt xs ys else nkLt x y

/-- The digit character of value `n < 10`. -/
def digitChar (n : Nat) : Char := Char.ofNat (48 + n)

/-- The decimal representation of a natural number, most significant digit
first (how an integer is written in a string being sorted). -/
def toDec (n : Nat) : List Char :=
  if n < 10 then [digitChar n] else toDec (n / 10) ++ [digitChar (n % 10)]
decreasing_by
  exact Nat.div_lt_self (by omega) (by omega)

lemma head?_dropWhile_false (p : Char → Bool) (l : List Char) :
    ∀ c ∈ (l.dropWhile p).head?, p c = false := by
  induction l with
  | nil => simp
  | cons x xs ih =>
    by_cases h : p x
    · simpa [List.dropWhile_cons, h] using ih
    · simp only [List.dropWhile_cons, if_neg h, List.head?_cons, Option.mem_def,
        Option.some.injEq]
      rintro c rfl
      simpa using h

lemma pyRstrip_spec (l : List Char) : RstripSpec l (pyRstrip l) := by
  constructor
  · refine ⟨(l.reverse.takeWhile pyIsSpace).reverse, ?_, ?_⟩
    · rw [pyRstrip, ← List.reverse_append, List.takeWhile_append_dropWhile,
        List.reverse_reverse]
    · intro c hc
      rw [List.mem_reverse] at hc
      exact List.mem_takeWhile_imp hc
  · intro c hc
    rw [pyRstrip, List.reverse_reverse] at hc
    exact head?_dropWhile_false pyIsSpace l.reverse c hc

lemma chunkCalls_map (xs : List (List Char)) :
    (List.filterMap
      ((fun e =>
        match e with
        | WriterEvent.addChunk sid payload => some (sid, payload)
        | _ => none) ∘ fun l => WriterEvent.addChunk 0 (pyRstrip l))
      xs) =
      xs.map fun l => (0, pyRstrip l) := by
  induction xs with
  | nil => rfl
  | cons x xs ih => simp only [List.filterMap_cons, Function.comp_apply, List.map_cons, ih]

lemma chunkCalls_lineCorpus (inFN outFN : String) (l : List Char)
    (ls : List (List Char)) :
    (lineCorpus inFN outFN true (l :: ls)).chunkCalls =
      (l :: ls).map fun x => (0, pyRstrip x) := by
  simp [lineCorpus, PopOutcome.chunkCalls, List.filterMap_cons, List.filterMap_append,
    chunkCalls_map]

lemma length_dropWhile_le (p : Char → Bool) (l : List Char) :
    (l.dropWhile p).length ≤ l.length := by
  induction l with
  | nil => simp
  | cons x xs ih =>
    by_cases h : p x <;> simp [List.dropWhile_cons, h] <;> omega

lemma dropWhile_head_false (p : Char → Bool) (l : List Char) (c : Char)
    (t : List Char) (h : l.dropWhile p = c :: t) : p c = false := by
  have := head?_dropWhile_false p l c
  rw [h] at this
  simpa using this

lemma readStream_insertChunk (db : List (Nat × List (List Char))) (s : Nat)
    (p : List Char) (sid : Nat) :
    readStream (insertChunk db s p) sid =
      if s = sid then readStream db sid ++ [p] else readStream db sid := by
  induction db with
  | nil =>
    by_cases h : s = sid <;> simp [insertChunk, readStream, h]
  | cons x rest ih =>
    obtain ⟨t, ps⟩ := x
    by_cases hts : t = s
    · subst hts
      by_cases hsid : t = sid <;>
        simp [insertChunk, readStream, hsid]
    · have hst : ¬ s = t := fun h => hts h.symm
      by_cases hsid : t = sid
      · subst hsid
        simp [insertChunk, readStream, hts, hst]
      · simp [insertChunk, readStream, hts, hst, hsid, ih]

lemma readStream_foldl (calls : List (Nat × List Char))
    (db : List (Nat × List (List Char))) (sid : Nat) :
    readStream (calls.foldl (fun d c => insertChunk d c.1 c.2) db) sid =
      readStream db sid ++ streamPayloads calls sid := by
  induction calls generalizing db with
  | nil => simp [streamPayloads]
  | cons c cs ih =>
    rw [List.foldl_cons, ih, readStream_insertChunk]
    by_cases h : c.1 = sid
    · simp [streamPayloads, List.filter_cons, h, List.append_assoc]
    · simp [streamPayloads, List.filter_cons, h]

/-- C6: round-trip/order-preservation law for the writer (modelled from the
spec, `CorpusBuilder.py` being outside the visible tree): after any non-empty
sequence of `add_chunk` calls, `finish` succeeds and, for every stream
identifier, reading the database back yields exactly the payloads submitted
for that identifier in submission order, independent of interleaving with
other streams; in particular the interleaved calls A,B,A,B read back as
stream A = [a1, a2] and stream B = [b1, b2]. -/
theorem finishWriter_round_trip (c : Nat × List Char)
    (cs : List (Nat × List Char)) (sid : Nat) :
    (finishWriter (c :: cs) =
      Except.ok ((c :: cs).foldl (fun db x => insertChunk db x.1 x.2) []) ∧
     readStream ((c :: cs).foldl (fun db x => insertChunk db x.1 x.2) []) sid =
      streamPayloads (c :: cs) sid) ∧
    (finishWriter
        [(0, chars "a1"), (1, chars "b1"), (0, chars "a2"), (1, chars "b2")] =
      Except.ok [(0, [chars "a1", chars "a2"]), (1, [chars "b1", chars "b2"])] ∧
     readStream [(0, [chars "a1", chars "a2"]), (1, [chars "b1", chars "b2"])] 0 =
      [chars "a1", chars "a2"] ∧
     readStream [(0, [chars "a1", chars "a2"]), (1, [chars "b1", chars "b2"])] 1 =
      [chars "b1", chars "b2"]) := by
  refine ⟨⟨rfl, ?_⟩, by rfl, by rfl, by rfl⟩
  rw [readStream_foldl]
  simp [readStream]

/-- C7: `finish()` on a writer with zero `add_chunk` calls fails with
`EmptyCorpusError` (modelled from the spec, `CorpusBuilder.py` being outside
the visible tree): the result is the error, not a database. -/
theorem finishWriter_empty_fails :
    finishWriter [] = Except.error WriterError.emptyCorpus ∧
    ∀ db, finishWriter [] ≠ Except.ok db := by
  constructor
  · rfl
  · intro db h
    simp [finishWriter] at h

/-- C8 (code bug): on the input consisting of one backtick, a space, and two
backticks, `code_block` chooses a delimiter of two backticks — one more than
the FIRST backtick run, not the longest — so the delimiter string occurs
inside the content (which contains a two-backtick run), contradicting the
function's own docstring ("The number of backticks is chosen to ensure that
it does not appear within the content of the given string"). -/
theorem code_block_delim_occurs_in_content :
    codeBlockDelimLen [backtick, ' ', backtick, backtick] = 2 ∧
    occursIn (List.replicate 2 backtick) [backtick, ' ', backtick, backtick] = true ∧
    code_block [backtick, ' ', backtick, backtick] =
      [backtick, backtick, Char.ofNat 10,
       backtick, ' ', backtick, backtick, Char.ofNat 10,
       backtick, backtick] := by
  refine ⟨by decide, by decide, by decide⟩

/-- C1 (counterexample): the claim that trailing non-terminator whitespace is
preserved fails: for the input line "beta \n" (trailing space before the
newline) the submitted payload is "beta", not "beta " — `rstrip()` removed
the trailing space as well as the newline. -/
theorem lineCorpus_trailing_space_not_preserved :
    (lineCorpus "corpus.txt" "corpus.db" true [chars "beta \n"]).chunkCalls =
      [(0, chars "beta")] ∧ chars "beta" ≠ chars "beta " := by
  constructor
  · decide
  · decide

/-- C1 (amended): every payload submitted by the line-based populator is its
source line with the maximal trailing run of Python whitespace characters
(line terminators, spaces, tabs, and the other `str.isspace` characters)
removed; nothing else — in particular no interior or leading content — is
altered, because the payload is a prefix of the line and only whitespace
is dropped. -/
theorem lineCorpus_rstrip_amended (inFN outFN : String) (l : List Char)
    (ls : List (List Char)) :
    (lineCorpus inFN outFN true (l :: ls)).chunkCalls =
      ((l :: ls).map fun x => (0, pyRstrip x)) ∧
    ∀ x : List Char, RstripSpec x (pyRstrip x) :=
  ⟨chunkCalls_lineCorpus inFN outFN l ls, fun x => pyRstrip_spec x⟩

/-- C2: when the input source does not exist, the populator exits with a
non-zero status (the argument of `sys.exit` is -1), and no writer call of any
kind is made: the writer is never opened and no output is created or
modified. -/
theorem lineCorpus_missing_input (inFN outFN : String)
    (fileLines : List (List Char)) :
    (lineCorpus inFN outFN false fileLines).exitCode ≠ 0 ∧
    (lineCorpus inFN outFN false fileLines).writerOpened = false ∧
    (lineCorpus inFN outFN false fileLines).events = [] := by
  refine ⟨?_, ?_, ?_⟩ <;> simp [lineCorpus, PopOutcome.writerOpened]

/-- C3: when the input source exists but contains zero lines, the populator
exits with status 0 and never opens a writer: no writer call is made at all,
so no output database is produced. -/
theorem lineCorpus_empty_input (inFN outFN : String) :
    (lineCorpus inFN outFN true []).exitCode = 0 ∧
    (lineCorpus inFN outFN true []).writerOpened = false ∧
    (lineCorpus inFN outFN true []).events = [] := by
  refine ⟨?_, ?_, ?_⟩ <;> simp [lineCorpus, PopOutcome.writerOpened]

/-- C4: on an existing, non-empty input the populator's writer trace is
exactly: one open, then one `add_chunk` per input line in input order, then a
single `finish` after all chunks; in particular for the input lines
"alpha", "beta", "gamma" the writer receives exactly those three payloads in
that order followed by one `finish`. -/
theorem lineCorpus_chunk_order (inFN outFN : String) (l : List Char)
    (ls : List (List Char)) :
    (lineCorpus inFN outFN true (l :: ls)).events =
      WriterEvent.openW outFN ::
        (((l :: ls).map fun x => WriterEvent.addChunk 0 (pyRstrip x)) ++
          [WriterEvent.finishW]) ∧
    (lineCorpus "corpus.txt" "corpus.db" true
        [chars "alpha\n", chars "beta\n", chars "gamma"]).events =
      [WriterEvent.openW "corpus.db",
       WriterEvent.addChunk 0 (chars "alpha"),
       WriterEvent.addChunk 0 (chars "beta"),
       WriterEvent.addChunk 0 (chars "gamma"),
       WriterEvent.finishW] := by
  constructor
  · simp [lineCorpus]
  · decide

/-- C5: every `add_chunk` call the populator makes uses the single fixed
stream identifier 0, whatever the input: all lines become chunks of one
stream. -/
theorem lineCorpus_single_stream (inFN outFN : String) (inExists : Bool)
    (fileLines : List (List Char)) :
    ((lineCorpus inFN outFN inExists fileLines).chunkCalls.all
      fun c => c.1 == 0) = true := by
  rcases inExists with _ | _
  · simp [lineCorpus, PopOutcome.chunkCalls]
  · rcases fileLines with _ | ⟨l, ls⟩
    · simp [lineCorpus, PopOutcome.chunkCalls]
    · rw [chunkCalls_lineCorpus]
      simp

/-- C9: when the input source path does not exist, the diagnostic printed
before exiting is formatted with the output path `outFN` — not the
nonexistent input path — exactly as in the source, where the format string
is applied to `outFN`. -/
theorem lineCorpus_message_names_output_path (inFN outFN : String)
    (fileLines : List (List Char)) :
    (lineCorpus inFN outFN false fileLines).errMsg =
      some ("Input file \x27" ++ outFN ++ "\x27 does not exist. Exiting.") := by
  simp [lineCorpus]

lemma digitChar_isDig (n : Nat) (h : n < 10) : isDig (digitChar n) = true := by
  interval_cases n <;> decide

lemma digitVal_digitChar (n : Nat) (h : n < 10) : digitVal (digitChar n) = n := by
  interval_cases n <;> decide

lemma toDec_ne_nil (n : Nat) : toDec n ≠ [] := by
  rw [toDec]
  split <;> simp

lemma toDec_digits (n : Nat) : ∀ c ∈ toDec n, isDig c = true := by
  induction n using Nat.strong_induction_on with
  | _ n ih =>
    rw [toDec]
    split
    · next h =>
      intro c hc
      rw [List.mem_singleton] at hc
      subst hc
      exact digitChar_isDig n h
    · next h =>
      intro c hc
      rw [List.mem_append] at hc
      rcases hc with hc | hc
      · exact ih (n / 10) (Nat.div_lt_self (by omega) (by omega)) c hc
      · rw [List.mem_singleton] at hc
        subst hc
        exact digitChar_isDig _ (Nat.mod_lt _ (by omega))

lemma foldl_digits (ys : List Char) : ∀ init : Nat,
    ys.foldl (fun acc c => 10 * acc + digitVal c) init =
      init * 10 ^ ys.length + digitsVal ys := by
  induction ys with
  | nil => intro init; simp [digitsVal]
  | cons c cs ih =>
    intro init
    rw [List.foldl_cons, ih]
    have h2 : digitsVal (c :: cs) = digitVal c * 10 ^ cs.length + digitsVal cs := by
      rw [digitsVal, List.foldl_cons, ih]
      norm_num
    rw [h2, List.length_cons]
    ring

lemma digitsVal_append (xs ys : List Char) :
    digitsVal (xs ++ ys) = digitsVal xs * 10 ^ ys.length + digitsVal ys := by
  rw [digitsVal, List.foldl_append, foldl_digits]
  rfl

lemma digitsVal_toDec (n : Nat) : digitsVal (toDec n) = n := by
  induction n using Nat.strong_induction_on with
  | _ n ih =>
    rw [toDec]
    split
    · next h =>
      rw [digitsVal, List.foldl_cons, List.foldl_nil]
      simpa using digitVal_digitChar n h
    · next h =>
      rw [digitsVal_append, ih (n / 10) (Nat.div_lt_self (by omega) (by omega))]
      have hsing : digitsVal [digitChar (n % 10)] = n % 10 := by
        rw [digitsVal, List.foldl_cons, List.foldl_nil]
        simpa using digitVal_digitChar _ (Nat.mod_lt _ (by omega))
      rw [hsing, List.length_singleton, pow_one]
      omega

lemma toDec_length (n : Nat) : (toDec n).length =
    if n < 10 then 1 else (toDec (n / 10)).length + 1 := by
  rw [toDec]
  split <;> simp

lemma toDec_length_mono : ∀ b a : Nat, a ≤ b →
    (toDec a).length ≤ (toDec b).length := by
  intro b
  induction b using Nat.strong_induction_on with
  | _ b ih =>
    intro a hab
    rw [toDec_length a, toDec_length b]
    by_cases hb : b < 10
    · have ha : a < 10 := by omega
      rw [if_pos ha, if_pos hb]
    · by_cases ha : a < 10
      · rw [if_pos ha, if_neg hb]
        omega
      · rw [if_neg ha, if_neg hb]
        have h1 : a / 10 ≤ b / 10 := Nat.div_le_div_right hab
        have h2 := ih (b / 10) (Nat.div_lt_self (by omega) (by omega)) (a / 10) h1
        omega

lemma digitsVal_merge_lt (d : List Char) (a b : Nat) (h : a < b) :
    digitsVal (d ++ toDec a) < digitsVal (d ++ toDec b) := by
  rw [digitsVal_append, digitsVal_append, digitsVal_toDec, digitsVal_toDec]
  have hlen : (toDec a).length ≤ (toDec b).length :=
    toDec_length_mono b a (Nat.le_of_lt h)
  have hpow : (10 : Nat) ^ (toDec a).length ≤ 10 ^ (toDec b).length :=
    Nat.pow_le_pow_right (by omega) hlen
  have hmul : digitsVal d * 10 ^ (toDec a).length ≤
      digitsVal d * 10 ^ (toDec b).length :=
    Nat.mul_le_mul_left _ hpow
  omega

lemma takeWhile_all (p : Char → Bool) (l : List Char)
    (h : ∀ c ∈ l, p c = true) : l.takeWhile p = l := by
  induction l with
  | nil => rfl
  | cons x xs ih =>
    rw [List.takeWhile_cons_of_pos (h x (List.mem_cons_self x xs))]
    rw [ih fun c hc => h c (List.mem_cons_of_mem x hc)]

lemma dropWhile_all (p : Char → Bool) (l : List Char)
    (h : ∀ c ∈ l, p c = true) : l.dropWhile p = [] := by
  induction l with
  | nil => rfl
  | cons x xs ih =>
    rw [List.dropWhile_cons_of_pos (h x (List.mem_cons_self x xs))]
    exact ih fun c hc => h c (List.mem_cons_of_mem x hc)

lemma dropWhile_nil_all (p : Char → Bool) (l : List Char)
    (h : l.dropWhile p = []) : ∀ c ∈ l, p c = true := by
  have ht : l.takeWhile p = l := by
    have hd := List.takeWhile_append_dropWhile p l
    rw [h, List.append_nil] at hd
    exact hd
  intro c hc
  rw [← ht] at hc
  exact List.mem_takeWhile_imp hc

lemma nsk_unfold (s : List Char) (r0 : Char) (rt : List Char)
    (hr : s.dropWhile (fun c => !isDig c) = r0 :: rt) :
    natural_sort_key s =
      NKey.str (lowerStr (s.takeWhile fun c => !isDig c)) ::
      NKey.num (digitsVal ((r0 :: rt).takeWhile isDig)) ::
      natural_sort_key ((r0 :: rt).dropWhile isDig) := by
  rw [natural_sort_key, hr]
  rw [dif_neg (by simp)]

lemma nsk_nil : natural_sort_key [] = [NKey.str []] := by
  rw [natural_sort_key]
  rfl

lemma nsk_digits (ds : List Char) (hne : ds ≠ []) (hds : ∀ c ∈ ds, isDig c = true) :
    natural_sort_key ds = [NKey.str [], NKey.num (digitsVal ds), NKey.str []] := by
  rcases ds with _ | ⟨d, t⟩
  · exact absurd rfl hne
  · have hd : isDig d = true := hds d (List.mem_cons_self d t)
    have hdrop : (d :: t).dropWhile (fun c => !isDig c) = d :: t :=
      List.dropWhile_cons_of_neg (by simp [hd])
    rw [nsk_unfold (d :: t) d t hdrop]
    rw [List.takeWhile_cons_of_neg (by simp [hd])]
    rw [takeWhile_all isDig (d :: t) hds, dropWhile_all isDig (d :: t) hds, nsk_nil]
    rfl

lemma keyLt_same_str (x : List Char) (va vb : Nat) (r1 r2 : List NKey)
    (h : va < vb) :
    keyLt (NKey.str x :: NKey.num va :: r1) (NKey.str x :: NKey.num vb :: r2) = true := by
  have hne : (NKey.num va = NKey.num vb) = False := by
    simp
    omega
  simp [keyLt, nkLt, hne, h]

lemma keyLt_cons_same (x : NKey) (k1 k2 : List NKey) (h : keyLt k1 k2 = true) :
    keyLt (x :: k1) (x :: k2) = true := by
  simp [keyLt, h]

lemma nsk_nodigit (p ds : List Char) (hp : ∀ c ∈ p, isDig c = false)
    (hne : ds ≠ []) (hds : ∀ c ∈ ds, isDig c = true) :
    natural_sort_key (p ++ ds) =
      [NKey.str (lowerStr p), NKey.num (digitsVal ds), NKey.str []] := by
  rcases ds with _ | ⟨d, t⟩
  · exact absurd rfl hne
  · have hd : isDig d = true := hds d (List.mem_cons_self d t)
    have hPp : ∀ c ∈ p, (fun c => !isDig c) c = true := by
      intro c hc
      simp [hp c hc]
    have hdrop : (p ++ d :: t).dropWhile (fun c => !isDig c) = d :: t := by
      rw [List.dropWhile_append_of_pos hPp]
      exact List.dropWhile_cons_of_neg (by simp [hd])
    rw [nsk_unfold (p ++ d :: t) d t hdrop]
    have htake : (p ++ d :: t).takeWhile (fun c => !isDig c) = p := by
      rw [List.takeWhile_append_of_pos hPp]
      rw [List.takeWhile_cons_of_neg (by simp [hd])]
      exact List.append_nil p
    rw [htake, takeWhile_all isDig (d :: t) hds, dropWhile_all isDig (d :: t) hds,
      nsk_nil]

lemma nsk_lt_aux : ∀ (n : Nat) (p : List Char), p.length ≤ n → ∀ a b : Nat, a < b →
    keyLt (natural_sort_key (p ++ toDec a)) (natural_sort_key (p ++ toDec b)) = true := by
  intro n
  induction n with
  | zero =>
    intro p hp a b hab
    have hp0 : p = [] := by
      cases p
      · rfl
      · simp at hp
    subst hp0
    rw [List.nil_append, List.nil_append,
        nsk_digits (toDec a) (toDec_ne_nil a) (toDec_digits a),
        nsk_digits (toDec b) (toDec_ne_nil b) (toDec_digits b),
        digitsVal_toDec, digitsVal_toDec]
    exact keyLt_same_str [] a b _ _ hab
  | succ n ih =>
    intro p hp a b hab
    rcases hr : p.dropWhile (fun c => !isDig c) with _ | ⟨r0, rt⟩
    · have hpall : ∀ c ∈ p, isDig c = false := by
        intro c hc
        have := dropWhile_nil_all _ p hr c hc
        simpa using this
      rw [nsk_nodigit p (toDec a) hpall (toDec_ne_nil a) (toDec_digits a),
          nsk_nodigit p (toDec b) hpall (toDec_ne_nil b) (toDec_digits b),
          digitsVal_toDec, digitsVal_toDec]
      exact keyLt_same_str _ a b _ _ hab
    · have hr0 : isDig r0 = true := by
        have := dropWhile_head_false (fun c => !isDig c) p r0 rt hr
        simpa using this
      have hlen := congrArg List.length (List.takeWhile_append_dropWhile
        (fun c => !isDig c) p)
      rw [List.length_append, hr] at hlen
      simp only [List.length_cons] at hlen
      have hne2 : ¬ ((p.takeWhile fun c => !isDig c).length = p.length) := by
        omega
      have hdropa : (p ++ toDec a).dropWhile (fun c => !isDig c) =
          r0 :: (rt ++ toDec a) := by
        rw [List.dropWhile_append, hr]
        simp
      have hdropb : (p ++ toDec b).dropWhile (fun c => !isDig c) =
          r0 :: (rt ++ toDec b) := by
        rw [List.dropWhile_append, hr]
        simp
      have htakea : (p ++ toDec a).takeWhile (fun c => !isDig c) =
          p.takeWhile (fun c => !isDig c) := by
        rw [List.takeWhile_append, if_neg hne2]
      have htakeb : (p ++ toDec b).takeWhile (fun c => !isDig c) =
          p.takeWhile (fun c => !isDig c) := by
        rw [List.takeWhile_append, if_neg hne2]
      rw [nsk_unfold (p ++ toDec a) r0 (rt ++ toDec a) hdropa,
          nsk_unfold (p ++ toDec b) r0 (rt ++ toDec b) hdropb,
          htakea, htakeb, ← List.cons_append, ← List.cons_append]
      rcases hq : (r0 :: rt).dropWhile isDig with _ | ⟨q0, qt⟩
      · have hall : ∀ c ∈ (r0 :: rt), isDig c = true := dropWhile_nil_all isDig _ hq
        have halla : ∀ c ∈ (r0 :: rt) ++ toDec a, isDig c = true := by
          intro c hc
          rw [List.mem_append] at hc
          rcases hc with hc | hc
          · exact hall c hc
          · exact toDec_digits a c hc
        have hallb : ∀ c ∈ (r0 :: rt) ++ toDec b, isDig c = true := by
          intro c hc
          rw [List.mem_append] at hc
          rcases hc with hc | hc
          · exact hall c hc
          · exact toDec_digits b c hc
        rw [takeWhile_all isDig _ halla, takeWhile_all isDig _ hallb,
            dropWhile_all isDig _ halla, dropWhile_all isDig _ hallb, nsk_nil]
        exact keyLt_same_str _ _ _ _ _ (digitsVal_merge_lt (r0 :: rt) a b hab)
      · have hlen2 := congrArg List.length (List.takeWhile_append_dropWhile
          isDig (r0 :: rt))
        rw [List.length_append, hq] at hlen2
        simp only [List.length_cons] at hlen2
        have hne3 : ¬ (((r0 :: rt).takeWhile isDig).length = (r0 :: rt).length) := by
          simp only [List.length_cons]
          omega
        have hta : ((r0 :: rt) ++ toDec a).takeWhile isDig =
            (r0 :: rt).takeWhile isDig := by
          rw [List.takeWhile_append, if_neg hne3]
        have htb : ((r0 :: rt) ++ toDec b).takeWhile isDig =
            (r0 :: rt).takeWhile isDig := by
          rw [List.takeWhile_append, if_neg hne3]
        have hda : ((r0 :: rt) ++ toDec a).dropWhile isDig = (q0 :: qt) ++ toDec a := by
          rw [List.dropWhile_append, hq]
          simp
        have hdb : ((r0 :: rt) ++ toDec b).dropWhile isDig = (q0 :: qt) ++ toDec b := by
          rw [List.dropWhile_append, hq]
          simp
        rw [hta, htb, hda, hdb]
        apply keyLt_cons_same
        apply keyLt_cons_same
        have hq_rt : (q0 :: qt).length ≤ rt.length := by
          rw [List.dropWhile_cons_of_pos hr0] at hq
          calc (q0 :: qt).length = (rt.dropWhile isDig).length := by rw [hq]
            _ ≤ rt.length := length_dropWhile_le isDig rt
        have hr_p : (r0 :: rt).length ≤ p.length := by
          rw [← hr]
          exact length_dropWhile_le _ p
        apply ih (q0 :: qt) ?_ a b hab
        simp only [List.length_cons] at hq_rt hr_p ⊢
        omega

lemma nsk_case_insensitive_example :
    natural_sort_key (chars "Foo-2") = natural_sort_key (chars "foo-2") := by
  rw [nsk_unfold (chars "Foo-2") '2' [] (by decide),
      nsk_unfold (chars "foo-2") '2' [] (by decide)]
  have h1 : lowerStr ((chars "Foo-2").takeWhile fun c => !isDig c) =
      lowerStr ((chars "foo-2").takeWhile fun c => !isDig c) := by decide
  rw [h1]

/-- C10: `natural_sort_key` orders strings so that maximal decimal-digit
substrings compare by integer value (each digit run enters the key as its
integer value, all other text lowercased): for every prefix `p` and naturals
`a < b`, the string `p` followed by the decimal representation of `a` sorts
strictly before `p` followed by the decimal representation of `b` — even when
`p` itself ends in digits that merge with the appended number — and keys of
strings differing only in letter case coincide. -/
theorem natural_sort_key_numeric_order (p : List Char) (a b : Nat) (hab : a < b) :
    keyLt (natural_sort_key (p ++ toDec a)) (natural_sort_key (p ++ toDec b)) = true ∧
    natural_sort_key (chars "Foo-2") = natural_sort_key (chars "foo-2") :=
  ⟨nsk_lt_aux p.length p le_rfl a b hab, nsk_case_insensitive_example⟩

/-- C10 witness: "foo-2" sorts before "foo-10" under the natural key, though
plain code-point string order puts "foo-10" first. -/
theorem natural_sort_key_numeric_order_witness :
    (keyLt (natural_sort_key (chars "foo-" ++ toDec 2))
      (natural_sort_key (chars "foo-" ++ toDec 10)) = true ∧
     natural_sort_key (chars "Foo-2") = natural_sort_key (chars "foo-2")) ∧
    charsLt (chars "foo-10") (chars "foo-2") = true :=
  ⟨natural_sort_key_numeric_order (chars "foo-") 2 10 (by decide), by decide⟩
